import Mathlib

/-!
Verification of the pyemu instruction/template mini-language parsers
(src/pyemu/pst/pst_utils.py) and the null-space Monte Carlo engine
(src/pyemu/mc.py), shallowly embedded in Lean 4.

Strings are embedded as List Char; Python exceptions are modelled by
Option (none = the call raised).
-/

namespace PyEmu

/-- Python str.strip(): drop leading and trailing whitespace. -/
def strip (s : List Char) : List Char :=
  ((s.dropWhile Char.isWhitespace).reverse.dropWhile Char.isWhitespace).reverse

/-- Python str.split() with no separator: split on runs of whitespace,
discarding empty pieces. -/
def splitWs (s : List Char) : List (List Char) :=
  (s.splitOnP Char.isWhitespace).filter (fun p => p ≠ [])

/-- Python sequence slice l[::2] : elements at even indices. -/
def sliceEven {α : Type} : List α → List α
  | [] => []
  | [a] => [a]
  | a :: _ :: rest => a :: sliceEven rest

/-- Python sequence slice l[1::2] : elements at odd indices. -/
def sliceOdd {α : Type} (l : List α) : List α :=
  sliceEven l.tail

/-- Python str.index for a single character on a string: index of the first
occurrence, or an exception (none) when the character does not occur. -/
def str_index (c : Char) : List Char → Option Nat
  | [] => none
  | a :: rest => if a = c then some 0 else (str_index c rest).map (· + 1)

/-- istart_markers from parse_ins_string. -/
def istart_markers : List Char := ['[', '(', '!']

/-- iend_markers from parse_ins_string. -/
def iend_markers : List Char := [']', ')', '!']

/-- The while-loop of parse_ins_string (pst_utils.py:277-295), recursion on
an explicit fuel counter: idx is the scan position; the accumulated names are
returned in scan order; none models the ValueError raised by str.index when
no closing marker occurs after an opening marker. The loop advances idx by at
least one each iteration and stops once idx >= len(string)-1, so fuel
len(string)+1 is never exhausted. -/
def parse_ins_string_go (s : List Char) : Nat → Nat → Option (List String)
  | 0, _ => none
  | fuel + 1, idx =>
    if idx ≥ s.length - 1 then some []
    else
      let char := s.getD idx ' '
      if char ∈ istart_markers then
        let em := iend_markers.getD (istart_markers.indexOf char) ' '
        match str_index em (s.drop (idx + 1)) with
        | none => none
        | some j =>
          let eidx := min s.length (j + idx + 1)
          let obs_name := (s.drop (idx + 1)).take (eidx - (idx + 1))
          match parse_ins_string_go s fuel (eidx + 1) with
          | none => none
          | some names =>
            if obs_name.map Char.toLower = "dum".toList then some names
            else some (String.mk obs_name :: names)
      else parse_ins_string_go s fuel (idx + 1)

/-- parse_ins_string (pst_utils.py:271-296) on a list of characters. -/
def parse_ins_string_list (l : List Char) : Option (List String) :=
  parse_ins_string_go l (l.length + 1) 0

/-- parse_ins_string (pst_utils.py:271-296). -/
def parse_ins_string (s : String) : Option (List String) :=
  parse_ins_string_list s.toList

/-- The scanner as the spec describes it (spec section 4.1): on an opening
marker at position idx the token is the substring strictly between idx and
the first matching closing marker, clamped to end-of-string when no closer
exists; a token equal to dum case-insensitively is discarded; the scan
resumes just after the closer. Total: no error case. -/
def scan_spec_go (s : List Char) : Nat → Nat → List String
  | 0, _ => []
  | fuel + 1, idx =>
    if idx ≥ s.length - 1 then []
    else
      let char := s.getD idx ' '
      if char ∈ istart_markers then
        let em := iend_markers.getD (istart_markers.indexOf char) ' '
        let eidx :=
          match str_index em (s.drop (idx + 1)) with
          | some j => j + idx + 1
          | none => s.length
        let tok := (s.drop (idx + 1)).take (eidx - (idx + 1))
        let rest := scan_spec_go s fuel (eidx + 1)
        if tok.map Char.toLower = "dum".toList then rest
        else String.mk tok :: rest
      else scan_spec_go s fuel (idx + 1)

/-- The spec's scanner on a whole line. -/
def scan_spec (s : String) : List String :=
  scan_spec_go s.toList (s.toList.length + 1) 0

/-- The fold that accumulates a raw parameter name from a body line of a
template file: p is appended only when not already present
(pst_utils.py:230-232). -/
def insert_unique (acc : List (List Char)) (p : List Char) : List (List Char) :=
  if p ∈ acc then acc else acc ++ [p]

/-- The raw (untrimmed, case-preserving) fields of one template body line:
line.strip().split(marker)[1::2] (pst_utils.py:229). -/
def tpl_line_fields (marker : Char) (line : String) : List (List Char) :=
  sliceOdd ((strip line.toList).splitOn marker)

/-- The raw parameter-name accumulation loop of parse_tpl_file
(pst_utils.py:228-232). -/
def tpl_raw_names (marker : Char) (body : List String) : List (List Char) :=
  body.foldl (fun acc line => (tpl_line_fields marker line).foldl insert_unique acc) []

/-- The final normalization of parse_tpl_file (pst_utils.py:236):
pn.strip().lower(). -/
def normalize_name (p : List Char) : String :=
  String.mk ((strip p).map Char.toLower)

/-- parse_tpl_file (pst_utils.py:202-237) over the file's lines (first line
is the header); none models any exception (assert failures and the
IndexError on an empty header are wrapped and re-raised). -/
def parse_tpl_file (lines : List String) : Option (List String) :=
  match lines with
  | [] => none
  | first :: body =>
    match splitWs (strip first.toList) with
    | [] => none
    | h0 :: rest =>
      if h0.map Char.toLower = "ptf".toList ∨ h0.map Char.toLower = "jtf".toList then
        if rest.length = 1 then
          let marker := rest.getD 0 []
          if marker.length = 1 then
            some ((tpl_raw_names (marker.getD 0 ' ') body).map normalize_name)
          else none
        else none
      else none

/-- One body line of parse_ins_file (pst_utils.py:260-266): if the marker
occurs in the line, split the stripped line on the marker and scan the
even-indexed pieces; otherwise scan the whole stripped line. -/
def ins_line_names (marker : Char) (line : String) : Option (List String) :=
  if marker ∈ line.toList then
    (sliceEven ((strip line.toList).splitOn marker)).foldl
      (fun acc item =>
        match acc, parse_ins_string_list item with
        | some a, some b => some (a ++ b)
        | _, _ => none)
      (some [])
  else parse_ins_string_list (strip line.toList)

/-- The body loop of parse_ins_file: concatenates the per-line names, in
line order; an exception (none) anywhere aborts the whole parse. -/
def ins_body_names (marker : Char) : List String → Option (List String)
  | [] => some []
  | line :: rest =>
    match ins_line_names marker line, ins_body_names marker rest with
    | some a, some b => some (a ++ b)
    | _, _ => none

/-- parse_ins_file (pst_utils.py:240-268) over the file's lines (first line
is the header); none models an uncaught exception. Note: unlike
parse_tpl_file there is no assertion that the header has exactly two
tokens; extra header tokens are ignored. -/
def parse_ins_file (lines : List String) : Option (List String) :=
  match lines with
  | [] => none
  | first :: body =>
    match splitWs (strip first.toList) with
    | [] => none
    | h0 :: rest =>
      if h0.map Char.toLower = "pif".toList ∨ h0.map Char.toLower = "jif".toList then
        match rest with
        | [] => none
        | marker :: _ =>
          if marker.length = 1 then
            match ins_body_names (marker.getD 0 ' ') body with
            | none => none
            | some names =>
              some (names.map (fun nm => String.mk ((strip nm.toList).map Char.toLower)))
          else none
      else none

/-- np.max over the spectrum (mc.py:38): maximum of a nonempty list
(0 for the empty list, on which numpy would error). -/
def np_max (s : List ℚ) : ℚ :=
  match s with
  | [] => 0
  | a :: t => t.foldl max a

/-- np.sort: ascending sort of the normalized spectrum (mc.py:38). -/
def np_sort (l : List ℚ) : List ℚ :=
  l.mergeSort (fun a b => a ≤ b)

/-- np.searchsorted with its default side left, on an ascending-sorted
array: the insertion point of v, i.e. the number of entries strictly below
v (numpy's documented semantics; numpy locates this point by binary
search). -/
def searchsorted_left (l : List ℚ) (v : ℚ) : Nat :=
  l.countP (fun x => x < v)

/-- MonteCarlo.get_nsing (mc.py:28-39): spectrum length minus the insertion
point of epsilon in the ascending sort of the spectrum normalized by its
maximum. Floating-point values are embedded as exact rationals. -/
def get_nsing (s : List ℚ) (epsilon : ℚ) : Nat :=
  s.length - searchsorted_left (np_sort (s.map (fun x => x / np_max s))) epsilon

/-- The product V2 times its transpose, for V2 a list of column vectors:
entry (i, j) sums the products of the i-th and j-th components over the
columns (mc.py:56). -/
def v2v2T (cols : List (List ℚ)) (i j : Nat) : ℚ :=
  (cols.map (fun c => c.getD i 0 * c.getD j 0)).sum

/-- MonteCarlo.get_null_proj (mc.py:41-59): keep the right-singular-vector
columns with index at least nsing (the slice v[:, nsing:]) and multiply by
the transpose. -/
def get_null_proj (cols : List (List ℚ)) (nsing : Nat) : Nat → Nat → ℚ :=
  v2v2T (cols.drop nsing)

/-- V times its transpose over the full set of right-singular vectors, as
the spec phrases the nsing = 0 case of the null projector. -/
def vvT (cols : List (List ℚ)) : Nat → Nat → ℚ :=
  v2v2T cols

/-- The slice of a pest control file that write_psts mutates and serializes:
the reference parameter values (parval1 column) and observation values
(obsval column), by position. -/
structure Pst where
  parval1 : List ℚ
  obsval : List ℚ
  deriving DecidableEq

/-- The MonteCarlo engine state (mc.py:8-22): the owned parameter and
observation ensembles (one realization per row), the log-transform flag of
the parameter ensemble, and the reference control file. -/
structure MonteCarlo where
  parensemble : List (List ℚ)
  islog : Bool
  obsensemble : List (List ℚ)
  pst : Pst
  deriving DecidableEq

/-- MonteCarlo.num_reals (mc.py:24-26): the row count of the parameter
ensemble. -/
def MonteCarlo.num_reals (mc : MonteCarlo) : Nat :=
  mc.parensemble.length

/-- Modelled from the spec: ParameterEnsemble._back_transform lives in
pyemu/en.py, which is not under src/; spec section 4.7 says only that
parameter values are back-transformed from log space before being written.
Modelled as the elementwise application of an arbitrary inverse transform
bt to every realization row. -/
def back_transform (bt : ℚ → ℚ) (en : List (List ℚ)) : List (List ℚ) :=
  en.map (List.map bt)

/-- MonteCarlo.write_psts (mc.py:132-165): one control-file artifact per
realization, named by the given name stem followed by the realization index
and .pst; realization i carries row i of the parameter ensemble
(back-transformed first when the ensemble is log-transformed), and the
observation values are overwritten from row i of the observation ensemble
exactly when that ensemble has as many realizations as the parameter
ensemble (mc.py:160). The inverse log transform bt is a parameter of the
model (see back_transform). -/
def write_psts (mc : MonteCarlo) (bt : ℚ → ℚ) (stem : String) : List (String × Pst) :=
  let par_en := if mc.islog then back_transform bt mc.parensemble else mc.parensemble
  (List.range mc.num_reals).map (fun i =>
    let pst1 : Pst := { parval1 := par_en.getD i [], obsval := mc.pst.obsval }
    let pst2 : Pst :=
      if mc.obsensemble.length = mc.num_reals
      then { pst1 with obsval := mc.obsensemble.getD i [] }
      else pst1
    (stem ++ toString i ++ ".pst", pst2))

theorem str_index_lt_length {c : Char} :
    ∀ {l : List Char} {j : Nat}, str_index c l = some j → j < l.length := by
  intro l
  induction l with
  | nil => intro j h; simp [str_index] at h
  | cons a rest ih =>
    intro j h
    simp only [str_index] at h
    split at h
    · cases h; simp
    · cases hr : str_index c rest with
      | none => rw [hr] at h; simp at h
      | some k =>
        rw [hr] at h
        simp only [Option.map_some'] at h
        cases h
        have := ih hr
        simp only [List.length_cons]
        omega

theorem parse_ins_string_go_refines (s : List Char) :
    ∀ fuel idx l, parse_ins_string_go s fuel idx = some l →
      scan_spec_go s fuel idx = l := by
  intro fuel
  induction fuel with
  | zero => intro idx l h; simp [parse_ins_string_go] at h
  | succ n ih =>
    intro idx l h
    simp only [parse_ins_string_go] at h
    simp only [scan_spec_go]
    split at h
    case isTrue hge =>
      cases h
      rw [if_pos hge]
    case isFalse hlt =>
      rw [if_neg hlt]
      split at h
      case isTrue hmem =>
        rw [if_pos hmem]
        cases hsi : str_index (iend_markers.getD
            (istart_markers.indexOf (s.getD idx ' ')) ' ') (s.drop (idx + 1)) with
        | none => rw [hsi] at h; exact absurd h (by simp)
        | some j =>
          rw [hsi] at h
          have hj : j < (s.drop (idx + 1)).length := str_index_lt_length hsi
          rw [List.length_drop] at hj
          have hidx : idx + 1 < s.length := by omega
          have hmin : min s.length (j + idx + 1) = j + idx + 1 := by omega
          dsimp only at h ⊢
          rw [hmin] at h
          cases hr : parse_ins_string_go s n (j + idx + 1 + 1) with
          | none => rw [hr] at h; exact absurd h (by simp)
          | some names =>
            rw [hr] at h
            dsimp only at h
            have hspec := ih (j + idx + 1 + 1) names hr
            rw [hspec]
            by_cases hdum : List.map Char.toLower
                (List.take (j + idx + 1 - (idx + 1)) (List.drop (idx + 1) s)) =
                "dum".toList
            · rw [if_pos hdum] at h
              rw [if_pos hdum]
              exact Option.some.inj h
            · rw [if_neg hdum] at h
              rw [if_neg hdum]
              exact Option.some.inj h
      case isFalse hmem =>
        rw [if_neg hmem]
        exact ih (idx + 1) l h

/-- C1: whenever parse_ins_string completes normally on a line, the tokens it
returns are exactly those described by the spec scanner: at each opening
marker in positions 0..length-2 the token is the substring strictly between
the marker and the first matching closer, tokens equal to dum
case-insensitively are discarded, the others are kept in scan order, and
scanning resumes after the closer; in particular the line
l1 w w w !obs1! w !dum! !obs2! scans to [obs1, obs2]. -/
theorem parse_ins_string_matches_spec (s : String) (l : List String)
    (h : parse_ins_string s = some l) :
    l = scan_spec s ∧
      parse_ins_string "l1 w w w !obs1! w !dum! !obs2!" =
        some ["obs1", "obs2"] :=
  ⟨(parse_ins_string_go_refines s.toList (s.toList.length + 1) 0 l h).symm,
   by decide⟩

/-- Witness for C1 at the spec's own example line. -/
theorem parse_ins_string_matches_spec_witness :
    ["obs1", "obs2"] = scan_spec "l1 w w w !obs1! w !dum! !obs2!" :=
  (parse_ins_string_matches_spec "l1 w w w !obs1! w !dum! !obs2!"
    ["obs1", "obs2"] (by decide)).1

/-- C2: evaluation of the code at the failing input: on the line !abc the
opening marker at position 0 has no matching closer afterwards, and
parse_ins_string raises (str.index raises ValueError), modelled as none;
the claim says the token would be clamped to end-of-string and [abc]
returned normally. -/
theorem parse_ins_string_unclosed_marker_raises :
    parse_ins_string "!abc" = none ∧ scan_spec "!abc" = ["abc"] := by
  constructor <;> decide

/-- C10: the scanner emits empty-string tokens when an opening marker is
immediately followed by its closer: both the line consisting of two bangs
and the line a[]b yield the single empty token, since the empty string is
not dum. -/
theorem parse_ins_string_empty_token :
    parse_ins_string "!!" = some [""] ∧
      parse_ins_string "a[]b" = some [""] := by
  constructor <;> decide

theorem insert_unique_nodup {acc : List (List Char)} {p : List Char}
    (h : acc.Nodup) : (insert_unique acc p).Nodup := by
  unfold insert_unique
  split
  · exact h
  · next hp =>
    refine List.Nodup.append h (List.nodup_singleton p) ?_
    intro a ha hap
    simp only [List.mem_singleton] at hap
    exact hp (hap ▸ ha)

theorem foldl_insert_unique_nodup (ps : List (List Char)) :
    ∀ acc : List (List Char), acc.Nodup → (ps.foldl insert_unique acc).Nodup := by
  induction ps with
  | nil => intro acc h; exact h
  | cons p ps ih => intro acc h; exact ih _ (insert_unique_nodup h)

theorem tpl_fold_nodup (marker : Char) (body : List String) :
    ∀ acc : List (List Char), acc.Nodup →
      (body.foldl
        (fun acc line => (tpl_line_fields marker line).foldl insert_unique acc)
        acc).Nodup := by
  induction body with
  | nil => intro acc h; exact h
  | cons line rest ih => intro acc h; exact ih _ (foldl_insert_unique_nodup _ _ h)

theorem tpl_raw_names_nodup (marker : Char) (body : List String) :
    (tpl_raw_names marker body).Nodup :=
  tpl_fold_nodup marker body [] List.nodup_nil

/-- C3 counterexample: the claim that parse_tpl_file output is duplicate-free
under case-insensitive comparison fails: a file whose body fields are
#par1# #PAR1# yields [par1, par1], which contains a duplicate, because
deduplication is applied to the raw fields before lower-casing and
trimming. -/
theorem parse_tpl_file_case_dup :
    parse_tpl_file ["ptf #", "#par1# #PAR1#"] = some ["par1", "par1"] ∧
      ¬ (["par1", "par1"] : List String).Nodup := by
  constructor
  · decide
  · decide

/-- C3 amended: every successful parse_tpl_file result is the image, under
trimming and lower-casing, of a duplicate-free list of raw fields kept in
first-occurrence order (deduplication happens before normalization, so the
result itself need not be duplicate-free case-insensitively); a file whose
body fields are #par1# #par2# #par1# still yields exactly [par1, par2]. -/
theorem parse_tpl_file_nodup_raw (lines : List String) (l : List String)
    (h : parse_tpl_file lines = some l) :
    (∃ raw : List (List Char), raw.Nodup ∧ l = raw.map normalize_name) ∧
      parse_tpl_file ["ptf #", "#par1# #par2# #par1#"] = some ["par1", "par2"] := by
  refine ⟨?_, by decide⟩
  cases lines with
  | nil => simp [parse_tpl_file] at h
  | cons first body =>
    simp only [parse_tpl_file] at h
    cases hsp : splitWs (strip first.toList) with
    | nil => rw [hsp] at h; simp at h
    | cons h0 rest =>
      rw [hsp] at h
      dsimp only at h
      split at h
      · split at h
        · split at h
          · exact ⟨tpl_raw_names ((rest.getD 0 []).getD 0 ' ') body,
              tpl_raw_names_nodup _ _, (Option.some.inj h).symm⟩
          · exact absurd h (by simp)
        · exact absurd h (by simp)
      · exact absurd h (by simp)

/-- Witness for C3 amended, at a one-parameter template file. -/
theorem parse_tpl_file_nodup_raw_witness :
    ∃ raw : List (List Char), raw.Nodup ∧ ["a"] = raw.map normalize_name :=
  (parse_tpl_file_nodup_raw ["ptf #", "#a#"] ["a"] (by decide)).1

/-- C6 counterexample: parse_ins_file does not enforce the two-token header
shape: a header with three tokens (pif ~ x) is accepted and the file parses
to [o1] instead of raising. -/
theorem parse_ins_file_three_token_header :
    parse_ins_file ["pif ~ x", "l1 !o1!"] = some ["o1"] := by decide

/-- C6 amended: parse_ins_file fails when the header has fewer than two
tokens, or its first token is not pif or jif case-insensitively, or its
second token (the marker) is not exactly one character; unlike
parse_tpl_file it has no exactly-two-tokens check, so extra header tokens
beyond the second are ignored rather than rejected. -/
theorem parse_ins_file_header_rejects (first : String) (body : List String)
    (h : (splitWs (strip first.toList)).length ≤ 1
       ∨ (((splitWs (strip first.toList)).getD 0 []).map Char.toLower ≠ "pif".toList
          ∧ ((splitWs (strip first.toList)).getD 0 []).map Char.toLower ≠ "jif".toList)
       ∨ ((splitWs (strip first.toList)).getD 1 []).length ≠ 1) :
    parse_ins_file (first :: body) = none := by
  simp only [parse_ins_file]
  cases hsp : splitWs (strip first.toList) with
  | nil => rfl
  | cons h0 rest =>
    rw [hsp] at h
    dsimp only
    cases rest with
    | nil =>
      split
      · rfl
      · rfl
    | cons m rest2 =>
      simp only [List.length_cons, List.getD, List.getElem?_cons_zero,
        List.getElem?_cons_succ, Option.getD_some] at h
      rcases h with h | ⟨h1, h2⟩ | h
      · omega
      · rw [if_neg]
        push_neg
        exact ⟨h1, h2⟩
      · split
        · dsimp only
          rw [if_neg (show ¬ m.length = 1 from h)]
        · rfl

/-- Witness for C6 amended: a header whose first token is xif is rejected. -/
theorem parse_ins_file_header_rejects_witness :
    parse_ins_file ["xif ~"] = none :=
  parse_ins_file_header_rejects "xif ~" [] (by decide)

theorem countP_lt_add_countP_ge (l : List ℚ) (v : ℚ) :
    l.countP (fun x => x < v) + l.countP (fun x => v ≤ x) = l.length := by
  induction l with
  | nil => rfl
  | cons a t ih =>
    by_cases h : a < v
    · simp [List.countP_cons, h, not_le.mpr h]
      omega
    · simp [List.countP_cons, h, not_lt.mp h]
      omega

theorem get_nsing_eq_countP (s : List ℚ) (eps : ℚ) :
    get_nsing s eps = (s.map (fun x => x / np_max s)).countP (fun r => eps ≤ r) := by
  unfold get_nsing searchsorted_left np_sort
  rw [(List.mergeSort_perm _ _).countP_eq]
  have hadd := countP_lt_add_countP_ge (s.map (fun x => x / np_max s)) eps
  have hlen : (s.map (fun x => x / np_max s)).length = s.length :=
    List.length_map _ _
  omega

/-- C4: for a nonempty descending nonnegative spectrum, get_nsing equals the
length minus the left insertion point of epsilon in the sorted normalized
ratios, which is the number of singular values whose ratio to the maximum is
at least epsilon; it is 0 when every ratio is below epsilon, the full length
when every ratio is at least epsilon, and 3 on the spectrum
[100, 10, 1, 1e-7] at epsilon 1e-6. -/
theorem get_nsing_counts_threshold (s : List ℚ) (eps : ℚ)
    (hne : s ≠ []) (hdesc : List.Sorted (· ≥ ·) s) (hnn : ∀ x ∈ s, 0 ≤ x) :
    get_nsing s eps = (s.map (fun x => x / np_max s)).countP (fun r => eps ≤ r) ∧
      ((∀ x ∈ s, x / np_max s < eps) → get_nsing s eps = 0) ∧
      ((∀ x ∈ s, eps ≤ x / np_max s) → get_nsing s eps = s.length) ∧
      get_nsing [100, 10, 1, (1 : ℚ) / 10000000] ((1 : ℚ) / 1000000) = 3 := by
  refine ⟨get_nsing_eq_countP s eps, ?_, ?_, ?_⟩
  · intro hall
    rw [get_nsing_eq_countP, List.countP_eq_zero]
    intro r hr
    simp only [List.mem_map] at hr
    obtain ⟨x, hx, rfl⟩ := hr
    simpa using not_le.mpr (hall x hx)
  · intro hall
    rw [get_nsing_eq_countP, ← List.length_map s (fun x => x / np_max s),
      List.countP_eq_length]
    intro r hr
    simp only [List.mem_map] at hr
    obtain ⟨x, hx, rfl⟩ := hr
    simpa using hall x hx
  · rw [get_nsing_eq_countP]
    norm_num [np_max, List.countP_cons, max_def]

/-- Witness for C4, at the spec's example spectrum. -/
theorem get_nsing_counts_threshold_witness :
    get_nsing [100, 10, 1, (1 : ℚ) / 10000000] ((1 : ℚ) / 1000000) = 3 :=
  (get_nsing_counts_threshold [100, 10, 1, (1 : ℚ) / 10000000]
    ((1 : ℚ) / 1000000) (by simp)
    (by norm_num [List.sorted_cons]) (by norm_num)).2.2.2

/-- C8: for a fixed spectrum, get_nsing is monotonically non-increasing in
epsilon: raising the tolerance never raises the returned rank. -/
theorem get_nsing_antitone (s : List ℚ) (e1 e2 : ℚ) (h : e1 ≤ e2) :
    get_nsing s e2 ≤ get_nsing s e1 := by
  unfold get_nsing searchsorted_left
  apply Nat.sub_le_sub_left
  apply List.countP_mono_left
  intro a _ ha
  simp only [decide_eq_true_eq] at ha ⊢
  exact lt_of_lt_of_le ha h

/-- Witness for C8, at the spec's example spectrum. -/
theorem get_nsing_antitone_witness :
    get_nsing [100, 10, 1, (1 : ℚ) / 10000000] 1 ≤
      get_nsing [100, 10, 1, (1 : ℚ) / 10000000] ((1 : ℚ) / 1000000) :=
  get_nsing_antitone [100, 10, 1, (1 : ℚ) / 10000000] ((1 : ℚ) / 1000000) 1
    (by norm_num)

/-- C9: with nsing equal to the number of columns the null projector is the
zero matrix (V2 is empty), and with nsing = 0 it is V times V transposed
over the full set of right-singular vectors. -/
theorem get_null_proj_extremes (cols : List (List ℚ)) :
    (∀ i j, get_null_proj cols cols.length i j = 0) ∧
      (∀ i j, get_null_proj cols 0 i j = vvT cols i j) := by
  constructor
  · intro i j
    unfold get_null_proj v2v2T
    rw [List.drop_length]
    rfl
  · intro i j
    unfold get_null_proj vvT
    rw [List.drop_zero]

/-- C5: write_psts produces exactly num_reals artifacts; artifact i is named
by the stem, the index i and the .pst suffix, its parameter values are row i
of the parameter ensemble after the inverse log transform exactly when the
ensemble is log-transformed, and its observation values come from row i of
the observation ensemble if and only if that ensemble has the same number of
realizations as the parameter ensemble (otherwise the reference observation
values are kept). -/
theorem write_psts_artifacts (mc : MonteCarlo) (bt : ℚ → ℚ) (stem : String) :
    (write_psts mc bt stem).length = mc.num_reals ∧
      ∀ i, i < mc.num_reals →
        (write_psts mc bt stem).getD i ("", ⟨[], []⟩) =
          (stem ++ toString i ++ ".pst",
           { parval1 :=
               if mc.islog then (mc.parensemble.getD i []).map bt
               else mc.parensemble.getD i [],
             obsval :=
               if mc.obsensemble.length = mc.num_reals
               then mc.obsensemble.getD i []
               else mc.pst.obsval }) := by
  constructor
  · simp [write_psts]
  · intro i hi
    have hi' : i < mc.parensemble.length := hi
    simp only [write_psts, List.getD_eq_getElem?_getD, List.getElem?_map,
      List.getElem?_range, hi, Option.map_some', Option.getD_some, back_transform]
    by_cases hobs : mc.obsensemble.length = mc.num_reals
    · rw [if_pos hobs, if_pos hobs]
      by_cases hlog : mc.islog
      · rw [if_pos hlog, if_pos hlog]
        simp [List.getD, List.getElem?_map, List.getElem?_eq_getElem hi']
      · rw [if_neg hlog, if_neg hlog]
    · rw [if_neg hobs, if_neg hobs]
      by_cases hlog : mc.islog
      · rw [if_pos hlog, if_pos hlog]
        simp [List.getD, List.getElem?_map, List.getElem?_eq_getElem hi']
      · rw [if_neg hlog, if_neg hlog]

/-- Witness for C5, on a two-realization engine whose observation ensemble
is empty (so observation values are kept from the reference file). -/
theorem write_psts_artifacts_witness :
    (write_psts ⟨[[1], [2]], false, [], ⟨[0], [5]⟩⟩ id "r").getD 0 ("", ⟨[], []⟩) =
      ("r0.pst", ⟨[1], [5]⟩) := by
  have h := (write_psts_artifacts ⟨[[1], [2]], false, [], ⟨[0], [5]⟩⟩ id "r").2 0
    (by decide)
  simpa using h

/-- C7 counterexample: on an engine in the EMPTY state (zero realizations
drawn) write_psts completes normally and produces zero artifacts; no
precondition error is raised. -/
theorem write_psts_empty_counterexample :
    write_psts ⟨[], false, [], ⟨[0], [5]⟩⟩ id "run" = [] := by decide

/-- C7 amended: calling write_psts on an engine with zero realizations is
not an error: the loop body never runs, no artifact is produced, and the
call returns normally. -/
theorem write_psts_empty_state (mc : MonteCarlo) (bt : ℚ → ℚ) (stem : String)
    (h : mc.num_reals = 0) : write_psts mc bt stem = [] := by
  simp [write_psts, h]

/-- Witness for C7 amended. -/
theorem write_psts_empty_state_witness :
    write_psts ⟨[], true, [[1]], ⟨[2], [3]⟩⟩ id "w" = [] :=
  write_psts_empty_state ⟨[], true, [[1]], ⟨[2], [3]⟩⟩ id "w" rfl

end PyEmu
